import Mathlib

/-!
Shallow embedding of `student_attendance_system.py` (class
`StudentAttendanceSystem`).

The embedding covers the three pure-logic components of the system:

* the identity codec `parse_name_id` (split a composite key on the last
  occurrence of the separator, with a default student id);
* the recognition smoother `update_recognition_buffer` (bounded per-slot
  history of (identity, confidence) observations with a quorum check);
* the attendance ledger `record_attendance` and `load_today_attendance`
  (idempotent append of one row per identity per day, and rebuilding the
  in-memory set of today's keys from the persisted rows).

External effects are made explicit: the outcome of the file append in
`record_attendance` is a boolean parameter, and the outcome of reading
the store in `load_today_attendance` is an optional list of delivered
rows together with a flag telling whether the read ran to completion.
Confidences are modelled as rationals.  Python's iteration order over
`set(names)` is modelled by an explicit enumeration function `enum`.
-/

namespace AttendanceSystem

/-- Splits a list of characters at the last occurrence of the separator
character, mirroring Python's `name_id.rsplit("_", 1)`.  Returns `none`
when the separator does not occur. -/
def splitLastSep : List Char → Option (List Char × List Char)
  | [] => none
  | c :: cs =>
    match splitLastSep cs with
    | some (a, b) => some (c :: a, b)
    | none => if c = '_' then some ([], cs) else none

/-- `parse_name_id` from the source: split the composite key at the last
occurrence of the separator; when no separator is present the student id
defaults to `"000"`. -/
def parse_name_id (name_id : String) : String × String :=
  match splitLastSep name_id.data with
  | some (a, b) => (String.mk a, String.mk b)
  | none => (name_id, "000")

/-- The quorum window size `self.buffer_threshold` (set to 3 in `__init__`). -/
def buffer_threshold : Nat := 3

/-- One observation fed to the smoother: a composite identity key and a
confidence. -/
abbrev Obs := String × ℚ

/-- Python's `max(iterable, key=key)`: a fold that keeps the current
maximum and replaces it only on a strictly larger key, so the first
maximal element of the enumeration wins. -/
def pyMaxBy (key : String → Nat) : List String → Option String
  | [] => none
  | x :: xs => some (xs.foldl (fun b a => if key b < key a then a else b) x)

/-- `max(set(names), key=names.count)` from the source; `e` stands for
the iteration order of the deduplicated names. -/
def mostCommonName (names : List String) (e : List String) : Option String :=
  pyMaxBy (fun x => names.count x) e

/-- Appending one observation to a slot history and trimming the oldest
entry when the capacity is exceeded (`append` followed by a conditional
`pop(0)`). -/
def nextHistory (h : List Obs) (o : Obs) : List Obs :=
  let h' := h ++ [o]
  if buffer_threshold < h'.length then h'.drop 1 else h'

/-- The stable-recognition check on a slot history: once the window is
full, take the most frequent identity and, if it occurs at least
`buffer_threshold - 1` times, return it with the mean confidence of its
occurrences in the window. -/
def stableOf (enum : List String → List String) (h : List Obs) : Option (String × ℚ) :=
  if buffer_threshold ≤ h.length then
    let names := h.map Prod.fst
    match mostCommonName names (enum names) with
    | some m =>
      if buffer_threshold - 1 ≤ names.count m then
        some (m, ((h.filter (fun p => p.1 == m)).map Prod.snd).sum / (names.count m : ℚ))
      else none
    | none => none
  else none

/-- `update_recognition_buffer`: append the observation to the slot's
history (trimming to the window size) and run the stable-recognition
check; returns the emitted stable identity, if any, together with the
updated buffer map.  A slot missing from the Python dict behaves like an
empty history, so the buffer is a total map defaulting to `[]`. -/
def update_recognition_buffer (buf : String → List Obs) (enum : List String → List String)
    (face_id name_id : String) (confidence : ℚ) :
    Option (String × ℚ) × (String → List Obs) :=
  let h := nextHistory (buf face_id) (name_id, confidence)
  (stableOf enum h, fun s => if s = face_id then h else buf s)

/-- Failure of the underlying file append. -/
inductive StorageError where
  | appendFailed
  deriving DecidableEq

/-- One-decimal rendering of a confidence, modelling `f"{confidence:.1f}"`
(none of the verified properties depend on the rendered digits). -/
def fmt1 (c : ℚ) : String :=
  let n : ℤ := round (10 * c)
  toString (n / 10) ++ "." ++ toString (n % 10).natAbs

/-- `record_attendance`: a key already present today is rejected without a
write; otherwise one row is appended to the store and only then is the
key added to the in-memory set.  The boolean `appendOk` is the outcome of
the underlying file append; the source catches an append failure, logs
it, and returns `False`, so the function itself always returns
`Except.ok` and never propagates a `StorageError`. -/
def record_attendance (today_attendance : Finset String) (rows : List (List String))
    (name_id : String) (confidence : ℚ) (date_str time_str : String) (appendOk : Bool) :
    Except StorageError (Bool × Finset String × List (List String)) :=
  if name_id ∈ today_attendance then
    Except.ok (false, today_attendance, rows)
  else if appendOk then
    Except.ok (true, insert name_id today_attendance,
      rows ++ [[date_str, time_str, (parse_name_id name_id).1, (parse_name_id name_id).2,
                fmt1 confidence]])
  else
    Except.ok (false, today_attendance, rows)

/-- The identity key rebuilt from a persisted row as in the source. -/
def rowKey (r : List String) : String :=
  r.getD 2 "" ++ "_" ++ r.getD 3 ""

/-- Processing one persisted row: rows with at least four fields whose
first field is today's date contribute their key to the set. -/
def loadStep (today : String) (acc : Finset String) (r : List String) : Finset String :=
  if 4 ≤ r.length ∧ r.getD 0 "" = today then insert (rowKey r) acc else acc

/-- Folding all delivered data rows into the set of today's keys. -/
def loadRows (today : String) (rs : List (List String)) : Finset String :=
  rs.foldl (loadStep today) ∅

/-- `load_today_attendance`: the in-memory set is reset to empty first;
when the store exists, the delivered rows (header first, skipped) are
folded in.  `readOutcome = none` means the store does not exist;
`readOutcome = some (rs, ok)` means the read delivered the rows `rs`
before either finishing normally (`ok = true`) or raising (`ok = false`,
in which case the source merely logs a warning), so the resulting set
does not depend on `ok`.  The prior in-memory set `prior` is overwritten
unconditionally. -/
def load_today_attendance (prior : Finset String) (today : String)
    (readOutcome : Option (List (List String) × Bool)) : Finset String :=
  match readOutcome with
  | none => ∅
  | some (rs, _ok) => loadRows today (rs.drop 1)

/-- The keys of the well-formed rows dated `today`, in row order. -/
def todayKeys (today : String) (rs : List (List String)) : List String :=
  (rs.filter (fun r => decide (4 ≤ r.length ∧ r.getD 0 "" = today))).map rowKey

/-- Arithmetic mean of a list of rationals. -/
def meanOf (l : List ℚ) : ℚ := l.sum / l.length

/-- The last `k` elements of a list. -/
def lastN {α : Type} (k : Nat) (l : List α) : List α := l.drop (l.length - k)

/-- The observations routed to slot `s` in a sequence of smoother calls. -/
def slotObs (s : String) (seq : List (String × Obs)) : List Obs :=
  (seq.filter (fun e => e.1 == s)).map Prod.snd

/-- Folding a sequence of `(slot, observation)` calls through the
smoother, keeping only the buffer state. -/
def feedAll (enum : List String → List String) (buf : String → List Obs)
    (seq : List (String × Obs)) : String → List Obs :=
  seq.foldl (fun b e => (update_recognition_buffer b enum e.1 e.2.1 e.2.2).2) buf

/-! ## Helper lemmas about the identity codec -/

theorem splitLastSep_of_not_mem {l : List Char} (h : '_' ∉ l) : splitLastSep l = none := by
  induction l with
  | nil => rfl
  | cons c cs ih =>
    have hc : c ≠ '_' := fun hc => h (hc ▸ List.mem_cons_self c cs)
    have hcs : '_' ∉ cs := fun hm => h (List.mem_cons_of_mem c hm)
    simp [splitLastSep, ih hcs, hc]

theorem splitLastSep_append {nl il : List Char} (h : '_' ∉ il) :
    splitLastSep (nl ++ '_' :: il) = some (nl, il) := by
  induction nl with
  | nil => simp [splitLastSep, splitLastSep_of_not_mem h]
  | cons c nl ih => simp [splitLastSep, ih]

theorem mk_data (s : String) : String.mk s.data = s := by
  cases s; rfl

theorem splitLastSep_join : ∀ {l a b : List Char}, splitLastSep l = some (a, b) →
    l = a ++ '_' :: b := by
  intro l
  induction l with
  | nil => intro a b h; simp [splitLastSep] at h
  | cons c cs ih =>
    intro a b h
    rw [splitLastSep] at h
    cases hcs : splitLastSep cs with
    | some p =>
      obtain ⟨a', b'⟩ := p
      rw [hcs] at h
      simp only [Option.some.injEq, Prod.mk.injEq] at h
      obtain ⟨ha, hb⟩ := h
      subst hb
      rw [← ha]
      simp [ih hcs]
    | none =>
      rw [hcs] at h
      by_cases hc : c = '_'
      · subst hc
        rw [if_pos rfl] at h
        simp only [Option.some.injEq, Prod.mk.injEq] at h
        obtain ⟨ha, hb⟩ := h
        subst hb
        simp [← ha]
      · simp [hc] at h

theorem splitLastSep_isSome {l : List Char} (h : '_' ∈ l) :
    ∃ a b, splitLastSep l = some (a, b) := by
  induction l with
  | nil => cases h
  | cons c cs ih =>
    by_cases hcs : '_' ∈ cs
    · obtain ⟨a, b, hab⟩ := ih hcs
      exact ⟨c :: a, b, by rw [splitLastSep, hab]⟩
    · have hc : c = '_' := by
        rcases List.mem_cons.mp h with h1 | h2
        · exact h1.symm
        · exact absurd h2 hcs
      exact ⟨[], cs, by rw [splitLastSep, splitLastSep_of_not_mem hcs, if_pos hc]⟩

/-! ## Helper lemmas about the recognition smoother -/

/-- Python `max` over a nonempty enumeration: the result decomposes the
enumeration into a strictly-smaller prefix, the chosen element, and a
suffix of elements with no larger key, i.e. the first maximal element in
enumeration order wins. -/
theorem foldMax_spec (key : String → Nat) :
    ∀ (xs : List String) (x : String),
      ∃ l₁ m l₂, x :: xs = l₁ ++ m :: l₂ ∧
        xs.foldl (fun b a => if key b < key a then a else b) x = m ∧
        (∀ z ∈ l₁, key z < key m) ∧ (∀ z ∈ l₂, key z ≤ key m) := by
  intro xs
  induction xs with
  | nil =>
    intro x
    exact ⟨[], x, [], rfl, rfl, by simp, by simp⟩
  | cons a xs ih =>
    intro x
    by_cases hxa : key x < key a
    · obtain ⟨l₁, m, l₂, hdec, hfold, hpre, hpost⟩ := ih a
      have ham : key a ≤ key m := by
        have : a ∈ l₁ ++ m :: l₂ := by rw [← hdec]; exact List.mem_cons_self a xs
        rcases List.mem_append.mp this with h1 | h2
        · exact le_of_lt (hpre a h1)
        · rcases List.mem_cons.mp h2 with h3 | h4
          · rw [h3]
          · exact hpost a h4
      refine ⟨x :: l₁, m, l₂, ?_, ?_, ?_, hpost⟩
      · rw [List.cons_append, ← hdec]
      · simp only [List.foldl_cons, if_pos hxa, hfold]
      · intro z hz
        rcases List.mem_cons.mp hz with h1 | h2
        · rw [h1]; exact lt_of_lt_of_le hxa ham
        · exact hpre z h2
    · obtain ⟨l₁, m, l₂, hdec, hfold, hpre, hpost⟩ := ih x
      have hax : key a ≤ key x := Nat.le_of_not_lt hxa
      cases l₁ with
      | nil =>
        simp only [List.nil_append, List.cons.injEq] at hdec
        obtain ⟨hxm, hxs⟩ := hdec
        refine ⟨[], m, a :: xs, by simp [hxm], ?_, by simp, ?_⟩
        · simp only [List.foldl_cons, if_neg hxa, hfold]
        · intro z hz
          rcases List.mem_cons.mp hz with h1 | h2
          · rw [h1, ← hxm]; exact hax
          · exact hpost z (hxs ▸ h2)
      | cons y t =>
        simp only [List.cons_append, List.cons.injEq] at hdec
        obtain ⟨hxy, hxs⟩ := hdec
        subst hxy
        have hxl : key x < key m := hpre x (List.mem_cons_self x t)
        refine ⟨x :: a :: t, m, l₂, by simp [hxs], ?_, ?_, hpost⟩
        · simp only [List.foldl_cons, if_neg hxa, hfold]
        · intro z hz
          rcases List.mem_cons.mp hz with h1 | h2
          · rw [h1]; exact hxl
          · rcases List.mem_cons.mp h2 with h3 | h4
            · rw [h3]; exact lt_of_le_of_lt hax hxl
            · exact hpre z (List.mem_cons_of_mem x h4)

theorem pyMaxBy_first_max (key : String → Nat) (x : String) (xs : List String) :
    ∃ l₁ m l₂, x :: xs = l₁ ++ m :: l₂ ∧
      pyMaxBy key (x :: xs) = some m ∧
      (∀ z ∈ l₁, key z < key m) ∧ (∀ z ∈ l₂, key z ≤ key m) := by
  obtain ⟨l₁, m, l₂, hdec, hfold, hpre, hpost⟩ := foldMax_spec key xs x
  exact ⟨l₁, m, l₂, hdec, by rw [pyMaxBy, hfold], hpre, hpost⟩

/-- When one element strictly dominates every other element of the
enumeration, Python's `max` returns it. -/
theorem pyMaxBy_strict_max (key : String → Nat) (e : List String) (A : String)
    (hA : A ∈ e) (hmax : ∀ x ∈ e, x ≠ A → key x < key A) :
    pyMaxBy key e = some A := by
  cases e with
  | nil => cases hA
  | cons x xs =>
    obtain ⟨l₁, m, l₂, hdec, hfold, hpre, hpost⟩ := pyMaxBy_first_max key x xs
    rw [hfold]
    by_cases hmA : m = A
    · rw [hmA]
    · have hm : m ∈ x :: xs := by
        rw [hdec]; exact List.mem_append_right l₁ (List.mem_cons_self m l₂)
      have hkm : key m < key A := hmax m hm hmA
      have hkA : key A ≤ key m := by
        rw [hdec] at hA
        rcases List.mem_append.mp hA with h1 | h2
        · exact le_of_lt (hpre A h1)
        · rcases List.mem_cons.mp h2 with h3 | h4
          · rw [h3]
          · exact hpost A h4
      exact absurd hkA (Nat.not_le_of_lt hkm)

theorem count_pair_le_length (l : List String) (a b : String) (hab : a ≠ b) :
    l.count a + l.count b ≤ l.length := by
  induction l with
  | nil => simp
  | cons x xs ih =>
    simp only [List.count_cons, List.length_cons, beq_iff_eq]
    by_cases hxa : x = a
    · have hxb : ¬(x = b) := fun hb => hab (hxa.symm.trans hb)
      rw [if_pos hxa, if_neg hxb]
      omega
    · rw [if_neg hxa]
      by_cases hxb : x = b
      · rw [if_pos hxb]; omega
      · rw [if_neg hxb]; omega

theorem count_map_fst (h : List Obs) (A : String) :
    (h.map Prod.fst).count A = (h.filter (fun p => p.1 == A)).length := by
  rw [List.count_eq_countP, ← List.countP_eq_length_filter, List.countP_map]
  rfl

theorem update_fst (buf : String → List Obs) (enum : List String → List String)
    (f n : String) (c : ℚ) :
    (update_recognition_buffer buf enum f n c).1
      = stableOf enum (nextHistory (buf f) (n, c)) :=
  rfl

theorem update_snd_self (buf : String → List Obs) (enum : List String → List String)
    (f n : String) (c : ℚ) :
    (update_recognition_buffer buf enum f n c).2 f = nextHistory (buf f) (n, c) := by
  simp [update_recognition_buffer]

theorem update_snd_other (buf : String → List Obs) (enum : List String → List String)
    (f n : String) (c : ℚ) (s : String) (hs : s ≠ f) :
    (update_recognition_buffer buf enum f n c).2 s = buf s := by
  simp [update_recognition_buffer, hs]

theorem nextHistory_of_le (h : List Obs) (o : Obs) (hlen : h.length + 1 ≤ buffer_threshold) :
    nextHistory h o = h ++ [o] := by
  unfold nextHistory
  rw [if_neg]
  simp only [List.length_append, List.length_singleton]
  omega

theorem stableOf_short (enum : List String → List String) (h : List Obs)
    (hlen : h.length < buffer_threshold) : stableOf enum h = none := by
  unfold stableOf
  rw [if_neg (Nat.not_le_of_lt hlen)]

theorem stableOf_full (enum : List String → List String) (h : List Obs) (m : String)
    (hlen : buffer_threshold ≤ h.length)
    (hmc : mostCommonName (h.map Prod.fst) (enum (h.map Prod.fst)) = some m)
    (hq : buffer_threshold - 1 ≤ (h.map Prod.fst).count m) :
    stableOf enum h = some (m, meanOf ((h.filter (fun p => p.1 == m)).map Prod.snd)) := by
  unfold stableOf
  rw [if_pos hlen]
  simp only [hmc]
  rw [if_pos hq, meanOf, List.length_map, ← count_map_fst]

theorem lastN_length_le {α : Type} (k : Nat) (l : List α) : (lastN k l).length ≤ k := by
  simp only [lastN, List.length_drop]
  omega

theorem nextHistory_lastN (l : List Obs) (o : Obs) :
    nextHistory (lastN buffer_threshold l) o = lastN buffer_threshold (l ++ [o]) := by
  unfold nextHistory lastN
  simp only [List.length_append, List.length_singleton, List.length_drop, buffer_threshold]
  by_cases hl : l.length ≤ 2
  · have h0 : l.length - 3 = 0 := by omega
    have h1 : l.length + 1 - 3 = 0 := by omega
    rw [h0, h1, List.drop_zero, List.drop_zero, if_neg]
    omega
  · rw [if_pos (by omega)]
    have hlen : (l.drop (l.length - 3)).length = 3 := by
      simp only [List.length_drop]; omega
    rw [List.drop_append_of_le_length (by rw [hlen]; omega), List.drop_drop,
      List.drop_append_of_le_length (by omega)]
    have h2 : l.length - 3 + 1 = l.length + 1 - 3 := by omega
    rw [h2]

theorem slotObs_append (s : String) (seq : List (String × Obs)) (e : String × Obs) :
    slotObs s (seq ++ [e]) = slotObs s seq ++ (if e.1 = s then [e.2] else []) := by
  simp only [slotObs, List.filter_append, List.map_append]
  congr 1
  by_cases he : e.1 = s
  · simp [List.filter, he]
  · have hb : (e.1 == s) = false := beq_eq_false_iff_ne.mpr he
    simp [List.filter, hb, he]

theorem feedAll_append (enum : List String → List String) (b : String → List Obs)
    (seq : List (String × Obs)) (e : String × Obs) :
    feedAll enum b (seq ++ [e])
      = (update_recognition_buffer (feedAll enum b seq) enum e.1 e.2.1 e.2.2).2 := by
  simp [feedAll, List.foldl_append]

theorem feed_lastN (enum : List String → List String) (seq : List (String × Obs)) (s : String) :
    feedAll enum (fun _ => []) seq s = lastN buffer_threshold (slotObs s seq) := by
  induction seq using List.reverseRecOn with
  | nil => simp [feedAll, slotObs, lastN]
  | append_singleton seq e ih =>
    rw [feedAll_append, slotObs_append]
    by_cases hs : s = e.1
    · subst hs
      rw [update_snd_self, ih, nextHistory_lastN]
      simp
    · rw [update_snd_other _ _ _ _ _ _ hs, ih]
      have he : ¬(e.1 = s) := fun he => hs he.symm
      simp [he]

/-! ## Helper lemmas about the attendance ledger -/

theorem loadRows_aux (today : String) :
    ∀ (rs : List (List String)) (acc : Finset String),
      rs.foldl (loadStep today) acc = acc ∪ (todayKeys today rs).toFinset := by
  intro rs
  induction rs with
  | nil => intro acc; simp [todayKeys]
  | cons r rs ih =>
    intro acc
    rw [List.foldl_cons, ih]
    by_cases hg : 4 ≤ r.length ∧ r.getD 0 "" = today
    · rw [loadStep, if_pos hg]
      have hp : decide (4 ≤ r.length ∧ r.getD 0 "" = today) = true := decide_eq_true hg
      have hkeys : todayKeys today (r :: rs) = rowKey r :: todayKeys today rs := by
        simp only [todayKeys]
        rw [List.filter_cons, if_pos hp, List.map_cons]
      rw [hkeys, List.toFinset_cons, Finset.union_insert, Finset.insert_union]
    · rw [loadStep, if_neg hg]
      have hp : ¬(decide (4 ≤ r.length ∧ r.getD 0 "" = today) = true) :=
        fun h => hg (of_decide_eq_true h)
      have hkeys : todayKeys today (r :: rs) = todayKeys today rs := by
        simp only [todayKeys]
        rw [List.filter_cons, if_neg hp]
      rw [hkeys]

theorem loadRows_eq (today : String) (rs : List (List String)) :
    loadRows today rs = (todayKeys today rs).toFinset := by
  rw [loadRows, loadRows_aux, Finset.empty_union]

/-! ## The claims -/

/-- C1: Idempotent recording — for every identity key already contained
in the in-memory TodaySet, `record_attendance` returns `false`, appends
no row to the persisted attendance store, and leaves TodaySet
unchanged. -/
theorem record_idempotent (today_attendance : Finset String) (rows : List (List String))
    (name_id : String) (confidence : ℚ) (date_str time_str : String) (appendOk : Bool)
    (h : name_id ∈ today_attendance) :
    record_attendance today_attendance rows name_id confidence date_str time_str appendOk
      = Except.ok (false, today_attendance, rows) := by
  rw [record_attendance, if_pos h]

/-- Witness for C1 at a concrete state. -/
theorem record_idempotent_witness : ("A_1" : String) ∈ ({"A_1"} : Finset String) ∧
    record_attendance {"A_1"} [] "A_1" 5 "d" "t" true
      = Except.ok (false, ({"A_1"} : Finset String), ([] : List (List String))) :=
  ⟨by decide, record_idempotent {"A_1"} [] "A_1" 5 "d" "t" true (by decide)⟩

/-- C2: Quorum correctness — feeding a fresh slot a sequence of
`buffer_threshold = 3` observations of which at least `K - 1` share the
identity `A`, the smoother stays silent on the first two calls and, on
the call that supplies the third observation, returns `A` paired with
the arithmetic mean of the confidences of `A`'s observations in the
window, for any enumeration `enum` of the distinct names. -/
theorem quorum_correctness (buf : String → List Obs) (enum : List String → List String)
    (f : String) (o1 o2 o3 : Obs) (A : String)
    (hbuf : buf f = [])
    (hA : buffer_threshold - 1 ≤ ([o1.1, o2.1, o3.1] : List String).count A)
    (hE1 : ∀ x ∈ enum [o1.1, o2.1, o3.1], x ∈ ([o1.1, o2.1, o3.1] : List String))
    (hE2 : ∀ x ∈ ([o1.1, o2.1, o3.1] : List String), x ∈ enum [o1.1, o2.1, o3.1]) :
    (update_recognition_buffer buf enum f o1.1 o1.2).1 = none ∧
    (update_recognition_buffer (update_recognition_buffer buf enum f o1.1 o1.2).2
      enum f o2.1 o2.2).1 = none ∧
    (update_recognition_buffer ((update_recognition_buffer
        (update_recognition_buffer buf enum f o1.1 o1.2).2 enum f o2.1 o2.2).2)
      enum f o3.1 o3.2).1
      = some (A, meanOf (([o1, o2, o3].filter (fun p => p.1 == A)).map Prod.snd)) := by
  have h1f : (update_recognition_buffer buf enum f o1.1 o1.2).2 f = [o1] := by
    rw [update_snd_self, hbuf, nextHistory_of_le]
    · rfl
    · simp [buffer_threshold]
  have h2f : (update_recognition_buffer (update_recognition_buffer buf enum f o1.1 o1.2).2
      enum f o2.1 o2.2).2 f = [o1, o2] := by
    rw [update_snd_self, h1f, nextHistory_of_le]
    · rfl
    · simp [buffer_threshold]
  refine ⟨?_, ?_, ?_⟩
  · rw [update_fst, hbuf, nextHistory_of_le _ _ (by simp [buffer_threshold])]
    exact stableOf_short enum _ (by simp [buffer_threshold])
  · rw [update_fst, h1f, nextHistory_of_le _ _ (by simp [buffer_threshold])]
    exact stableOf_short enum _ (by simp [buffer_threshold])
  · rw [update_fst, h2f, nextHistory_of_le _ _ (by simp [buffer_threshold])]
    have hwin : ([o1, o2] ++ [o3] : List Obs) = [o1, o2, o3] := rfl
    rw [hwin]
    have hnames : ([o1, o2, o3] : List Obs).map Prod.fst = [o1.1, o2.1, o3.1] := rfl
    have hmem : A ∈ ([o1.1, o2.1, o3.1] : List String) := by
      have hpos : 0 < ([o1.1, o2.1, o3.1] : List String).count A := by
        have h2 := hA
        simp [buffer_threshold] at h2
        omega
      exact List.count_pos_iff.mp hpos
    have hmc : mostCommonName [o1.1, o2.1, o3.1] (enum [o1.1, o2.1, o3.1]) = some A := by
      apply pyMaxBy_strict_max
      · exact hE2 A hmem
      · intro x hx hxA
        have hxmem : x ∈ ([o1.1, o2.1, o3.1] : List String) := hE1 x hx
        have hpair := count_pair_le_length [o1.1, o2.1, o3.1] x A hxA
        have hA' : 2 ≤ ([o1.1, o2.1, o3.1] : List String).count A := by
          simpa [buffer_threshold] using hA
        simp only [List.length_cons, List.length_nil] at hpair
        omega
    exact stableOf_full enum [o1, o2, o3] A (by simp [buffer_threshold])
      (by rw [hnames]; exact hmc) (by rw [hnames]; exact hA)

/-- Witness for C2 on the end-to-end scenario from the spec: observations
("Alice_001", 40), ("Alice_001", 42), ("Bob_002", 50) on a fresh slot. -/
theorem quorum_correctness_witness :
    (buffer_threshold - 1
      ≤ (["Alice_001", "Alice_001", "Bob_002"] : List String).count "Alice_001") ∧
    (update_recognition_buffer ((update_recognition_buffer
        (update_recognition_buffer (fun _ => []) (fun _ => ["Alice_001", "Bob_002"])
          "face_0" "Alice_001" 40).2
        (fun _ => ["Alice_001", "Bob_002"]) "face_0" "Alice_001" 42).2)
      (fun _ => ["Alice_001", "Bob_002"]) "face_0" "Bob_002" 50).1
      = some ("Alice_001",
          meanOf ((([(("Alice_001" : String), (40 : ℚ)), ("Alice_001", 42),
            ("Bob_002", 50)] : List Obs).filter
              (fun p => p.1 == "Alice_001")).map Prod.snd)) :=
  ⟨by decide,
    (quorum_correctness (fun _ => []) (fun _ => ["Alice_001", "Bob_002"]) "face_0"
      ("Alice_001", 40) ("Alice_001", 42) ("Bob_002", 50) "Alice_001" rfl
      (by decide) (by decide) (by decide)).2.2⟩

/-- C3 (counterexample): with an identity key not yet in TodaySet and a
failing append, `record_attendance` completes normally with `false`
instead of surfacing a `StorageError` to the caller — the source catches
the exception and returns `False`. -/
theorem append_failure_no_error :
    record_attendance (∅ : Finset String) [] "Alice_001" 41 "2026-10-12" "09:00:00" false
      = Except.ok (false, (∅ : Finset String), ([] : List (List String))) ∧
    record_attendance (∅ : Finset String) [] "Alice_001" 41 "2026-10-12" "09:00:00" false
      ≠ Except.error StorageError.appendFailed := by
  constructor
  · rw [record_attendance, if_neg (by decide), if_neg (by simp)]
  · rw [record_attendance, if_neg (by decide), if_neg (by simp)]
    simp

/-- C3 (amended): for every identity key not yet in TodaySet, if
appending the row fails, the failure is caught inside
`record_attendance`, which returns `false` to the caller (no
`StorageError` propagates), and neither TodaySet nor the persisted store
is mutated — the key is added only after the write succeeds. -/
theorem append_failure_caught (today_attendance : Finset String) (rows : List (List String))
    (name_id : String) (confidence : ℚ) (date_str time_str : String)
    (h : name_id ∉ today_attendance) :
    record_attendance today_attendance rows name_id confidence date_str time_str false
      = Except.ok (false, today_attendance, rows) := by
  rw [record_attendance, if_neg h, if_neg (by simp)]

/-- Witness for C3 (amended) at a concrete state. -/
theorem append_failure_caught_witness : ("B_2" : String) ∉ (∅ : Finset String) ∧
    record_attendance ∅ [] "B_2" 7 "d" "t" false
      = Except.ok (false, (∅ : Finset String), ([] : List (List String))) :=
  ⟨by decide, append_failure_caught ∅ [] "B_2" 7 "d" "t" (by decide)⟩

/-- C4 (counterexample): the store exists but reading fails immediately
(no rows delivered); the prior TodaySet `{"X_1"}` is not preserved — the
source clears the set before attempting the read. -/
theorem reload_failure_discards_prior :
    load_today_attendance {"X_1"} "2026-10-12" (some ([], false))
      ≠ ({"X_1"} : Finset String) := by
  rw [load_today_attendance]
  decide

/-- C4 (amended): when the persisted store exists but reading it fails
partway, TodaySet is reset and rebuilt from the rows delivered before
the failure: it ends as exactly the keys of the well-formed today-dated
rows among the delivered data rows (the header row is skipped), not as
its prior value; the failure is only logged, never fatal. -/
theorem reload_failure_partial_rebuild (prior : Finset String) (today : String)
    (rs : List (List String)) :
    load_today_attendance prior today (some (rs, false))
      = (todayKeys today (rs.drop 1)).toFinset := by
  rw [load_today_attendance, loadRows_eq]

/-- C5: Sub-quorum silence — the smoother returns nothing whenever the
slot's history after the append is shorter than `buffer_threshold`, and
also whenever no identity reaches at least `buffer_threshold - 1`
occurrences within the window. -/
theorem sub_quorum_silence (buf : String → List Obs) (enum : List String → List String)
    (f n : String) (c : ℚ)
    (hq : (nextHistory (buf f) (n, c)).length < buffer_threshold ∨
      ∀ x ∈ (nextHistory (buf f) (n, c)).map Prod.fst,
        ((nextHistory (buf f) (n, c)).map Prod.fst).count x < buffer_threshold - 1) :
    (update_recognition_buffer buf enum f n c).1 = none := by
  rw [update_fst]
  rcases hq with hshort | hcount
  · exact stableOf_short enum _ hshort
  · unfold stableOf
    by_cases hlen : buffer_threshold ≤ (nextHistory (buf f) (n, c)).length
    · rw [if_pos hlen]
      cases hmc : mostCommonName ((nextHistory (buf f) (n, c)).map Prod.fst)
          (enum ((nextHistory (buf f) (n, c)).map Prod.fst)) with
      | none => simp [hmc]
      | some m =>
        simp only [hmc]
        rw [if_neg]
        by_cases hmem : m ∈ (nextHistory (buf f) (n, c)).map Prod.fst
        · exact Nat.not_le_of_lt (hcount m hmem)
        · have hz : ((nextHistory (buf f) (n, c)).map Prod.fst).count m = 0 :=
            List.count_eq_zero.mpr hmem
          rw [hz]
          simp [buffer_threshold]
    · rw [if_neg hlen]

/-- Witness for C5: a full window of three pairwise distinct identities
stays silent. -/
theorem sub_quorum_silence_witness :
    ((nextHistory ((fun _ => [(("A" : String), (1 : ℚ)), ("B", 2)]) "face_0")
        ("C", 3)).map Prod.fst).count "A" < buffer_threshold - 1 ∧
    (update_recognition_buffer (fun _ => [(("A" : String), (1 : ℚ)), ("B", 2)])
      (fun l => l.dedup) "face_0" "C" 3).1 = none :=
  ⟨by decide,
    sub_quorum_silence (fun _ => [(("A" : String), (1 : ℚ)), ("B", 2)])
      (fun l => l.dedup) "face_0" "C" 3 (Or.inr (by decide))⟩

/-- C6: Codec round-trip — for every `(name, student_id)` with no
separator inside `student_id`, decoding the composite key
`name ++ "_" ++ student_id` with `parse_name_id` yields exactly
`(name, student_id)`, even when `name` contains the separator. -/
theorem codec_round_trip (name id : String) (h : '_' ∉ id.data) :
    parse_name_id (name ++ "_" ++ id) = (name, id) := by
  have hdata : (name ++ "_" ++ id).data = name.data ++ '_' :: id.data := by
    simp [String.data_append]
  rw [parse_name_id, hdata, splitLastSep_append h]

/-- Witness for C6 with a separator inside the name. -/
theorem codec_round_trip_witness : '_' ∉ ("1" : String).data ∧
    parse_name_id ("a_b" ++ "_" ++ "1") = ("a_b", "1") :=
  ⟨by decide, codec_round_trip "a_b" "1" (by decide)⟩

/-- C7: Reload consistency — for every persisted store consisting of a
header row followed by arbitrary data rows, `load_today_attendance`
produces exactly the set of keys of the well-formed rows dated `today`,
whose size is the number of distinct such keys; rows with other dates do
not affect the result. -/
theorem reload_consistency (prior : Finset String) (today : String) (header : List String)
    (rows : List (List String)) :
    load_today_attendance prior today (some (header :: rows, true))
      = (todayKeys today rows).toFinset ∧
    (load_today_attendance prior today (some (header :: rows, true))).card
      = (todayKeys today rows).dedup.length := by
  have h : load_today_attendance prior today (some (header :: rows, true))
      = (todayKeys today rows).toFinset := by
    rw [load_today_attendance, List.drop_one, List.tail_cons, loadRows_eq]
  exact ⟨h, by rw [h, List.card_toFinset]⟩

/-- C8: Bounded FIFO buffer invariant — after any sequence of smoother
calls starting from an empty buffer, each slot's history is exactly the
last `buffer_threshold` observations routed to that slot (the oldest
dropped first), and in particular has length at most
`buffer_threshold`. -/
theorem buffer_bounded_fifo (enum : List String → List String)
    (seq : List (String × Obs)) (s : String) :
    feedAll enum (fun _ => []) seq s = lastN buffer_threshold (slotObs s seq) ∧
    (feedAll enum (fun _ => []) seq s).length ≤ buffer_threshold :=
  ⟨feed_lastN enum seq s, by rw [feed_lastN]; exact lastN_length_le _ _⟩

/-- C9: Tie-break rule — for a full window of `buffer_threshold`
observations in which two identities are tied for the maximum occurrence
count, the selection step of `update_recognition_buffer`
(`mostCommonName`, the embedding of `max(set(names), key=names.count)`)
picks the first element of the counting enumeration that attains the
maximal count: the enumeration decomposes into a prefix of strictly less
frequent identities, the winner, and a suffix of identities that are at
most as frequent. -/
theorem tie_break_first_encountered (w : List Obs) (e : List String)
    (hw : w.length = buffer_threshold)
    (hsub : ∀ x ∈ e, x ∈ w.map Prod.fst) (hsup : ∀ x ∈ w.map Prod.fst, x ∈ e)
    (htie : ∃ x ∈ e, ∃ y ∈ e, x ≠ y ∧
      (w.map Prod.fst).count x = (w.map Prod.fst).count y ∧
      ∀ z ∈ e, (w.map Prod.fst).count z ≤ (w.map Prod.fst).count x) :
    ∃ l₁ m l₂, e = l₁ ++ m :: l₂ ∧
      mostCommonName (w.map Prod.fst) e = some m ∧
      (∀ z ∈ l₁, (w.map Prod.fst).count z < (w.map Prod.fst).count m) ∧
      (∀ z ∈ l₂, (w.map Prod.fst).count z ≤ (w.map Prod.fst).count m) := by
  obtain ⟨x, hx, -⟩ := htie
  cases e with
  | nil => cases hx
  | cons a as =>
    exact pyMaxBy_first_max (fun z => (w.map Prod.fst).count z) a as

/-- Witness for C9 on a three-way tie. -/
theorem tie_break_first_encountered_witness :
    (([(("A" : String), (1 : ℚ)), ("B", 2), ("C", 3)] : List Obs).length
      = buffer_threshold) ∧
    ∃ l₁ m l₂, (["A", "B", "C"] : List String) = l₁ ++ m :: l₂ ∧
      mostCommonName (([(("A" : String), (1 : ℚ)), ("B", 2), ("C", 3)]
        : List Obs).map Prod.fst) ["A", "B", "C"] = some m ∧
      (∀ z ∈ l₁, ((([(("A" : String), (1 : ℚ)), ("B", 2), ("C", 3)]
        : List Obs).map Prod.fst).count z
          < (([(("A" : String), (1 : ℚ)), ("B", 2), ("C", 3)]
        : List Obs).map Prod.fst).count m)) ∧
      (∀ z ∈ l₂, ((([(("A" : String), (1 : ℚ)), ("B", 2), ("C", 3)]
        : List Obs).map Prod.fst).count z
          ≤ (([(("A" : String), (1 : ℚ)), ("B", 2), ("C", 3)]
        : List Obs).map Prod.fst).count m)) :=
  ⟨by decide,
    tie_break_first_encountered [("A", 1), ("B", 2), ("C", 3)] ["A", "B", "C"]
      (by decide) (by decide) (by decide)
      ⟨"A", by decide, "B", by decide, by decide, by decide, by decide⟩⟩

/-- C10: Implicit inverse round-trip of the codec — for every key
containing the separator, rejoining the pair returned by
`parse_name_id` with the separator yields the original key, since the
split is on the last separator occurrence and drops no characters. -/
theorem key_rejoin_round_trip (key : String) (h : '_' ∈ key.data) :
    (parse_name_id key).1 ++ "_" ++ (parse_name_id key).2 = key := by
  obtain ⟨a, b, hs⟩ := splitLastSep_isSome h
  have hjoin := splitLastSep_join hs
  rw [parse_name_id, hs]
  have hdata : (String.mk a ++ "_" ++ String.mk b).data = a ++ '_' :: b := by
    simp [String.data_append]
  calc String.mk a ++ "_" ++ String.mk b
      = String.mk ((String.mk a ++ "_" ++ String.mk b).data) := (mk_data _).symm
    _ = String.mk (a ++ '_' :: b) := by rw [hdata]
    _ = String.mk key.data := by rw [← hjoin]
    _ = key := mk_data key

/-- Witness for C10. -/
theorem key_rejoin_round_trip_witness : '_' ∈ ("a_b" : String).data ∧
    (parse_name_id "a_b").1 ++ "_" ++ (parse_name_id "a_b").2 = "a_b" :=
  ⟨by decide, key_rejoin_round_trip "a_b" (by decide)⟩

end AttendanceSystem
